import Mathlib

/-!
Verification of the CollabCanvas z-index rewriter (src/fix-zindex.py).

The script reads a source text, splits it on the literal delimiter of four
spaces followed by an opening brace, classifies every fragment after the
header by searching for a type marker substring, substitutes the literal
`zIndex: 0` with a kind/size specific value using `re.sub`, and rejoins the
fragments with the same delimiter.

Strings are modelled as `List Char`.  Python `str.split(sep)` and `re.sub`
with a literal (metacharacter-free) pattern are both modelled on top of a
single left-to-right non-overlapping scan, `splitGo`: `split` returns the
fragments, and `re.sub pat repl s` is the fragments of `s` rejoined with
`repl` (Python `re.sub` substitutes every non-overlapping occurrence).
-/

/-- Bool test that `p` is a prefix of `s` (left-to-right character compare). -/
def startsWith : List Char → List Char → Bool
  | [], _ => true
  | _ :: _, [] => false
  | p :: ps, c :: cs => p == c && startsWith ps cs

/-- Bool test that `p` is a suffix of `s`. -/
def endsWith (p s : List Char) : Bool := startsWith p.reverse s.reverse

/-- Bool test that `p` occurs as a contiguous substring of `s`
(Python `p in s`). -/
def containsSub (p : List Char) : List Char → Bool
  | [] => p.isEmpty
  | c :: rest => startsWith p (c :: rest) || containsSub p rest

/-- Left-to-right non-overlapping scan used by both `split` and `re.sub`.
`skip` counts characters of an already matched pattern occurrence that are
still to be consumed without being appended to any fragment. -/
def splitGo (pat : List Char) : List Char → Nat → List (List Char)
  | [], _ => [[]]
  | _ :: rest, Nat.succ k => splitGo pat rest k
  | c :: rest, 0 =>
      if startsWith pat (c :: rest) then
        [] :: splitGo pat rest (pat.length - 1)
      else
        match splitGo pat rest 0 with
        | [] => [[c]]
        | f :: fs => (c :: f) :: fs

/-- Python `s.split(pat)` for a non-empty literal separator: the list of
fragments between the non-overlapping occurrences of `pat`, scanned left to
right. -/
def splitOnSub (pat s : List Char) : List (List Char) :=
  if pat.isEmpty then [s] else splitGo pat s 0

/-- Python `sep.join(parts)`. -/
def joinWith (sep : List Char) : List (List Char) → List Char
  | [] => []
  | [p] => p
  | p :: q :: ps => p ++ sep ++ joinWith sep (q :: ps)

/-- Python `int` on a string of decimal digits. -/
def natOfDigits (ds : List Char) : Nat :=
  ds.foldl (fun n c => 10 * n + (c.toNat - 48)) 0

/-- Python `re.search(key + digits-group, s)` followed by `int(group(1))`:
find the first position where the literal `key` occurs immediately followed
by at least one decimal digit, and return the value of the maximal digit run
following `key` there. -/
def searchNum (key : List Char) : List Char → Option Nat
  | [] => none
  | c :: rest =>
      if startsWith key (c :: rest) &&
          !(((c :: rest).drop key.length).takeWhile (fun ch => ch.isDigit)).isEmpty then
        some (natOfDigits (((c :: rest).drop key.length).takeWhile (fun ch => ch.isDigit)))
      else searchNum key rest

/-- The single-quote character, kept out of string literals. -/
def sglq : Char := Char.ofNat 39

/-- Marker `type: ` followed by single-quoted `text`. -/
def textMark1 : List Char := "type: ".data ++ (sglq :: ("text".data ++ [sglq]))

/-- Marker `type: "text"`. -/
def textMark2 : List Char := "type: \"text\"".data

/-- Marker `type: ` followed by single-quoted `circle`. -/
def circleMark1 : List Char := "type: ".data ++ (sglq :: ("circle".data ++ [sglq]))

/-- Marker `type: "circle"`. -/
def circleMark2 : List Char := "type: \"circle\"".data

/-- Marker `type: ` followed by single-quoted `rectangle`. -/
def rectMark1 : List Char := "type: ".data ++ (sglq :: ("rectangle".data ++ [sglq]))

/-- Marker `type: "rectangle"`. -/
def rectMark2 : List Char := "type: \"rectangle\"".data

/-- Line 14 of the script: the fragment mentions a text type marker. -/
def isTextShape (s : List Char) : Bool :=
  containsSub textMark1 s || containsSub textMark2 s

/-- Line 19 of the script: the fragment mentions a circle type marker. -/
def isCircleShape (s : List Char) : Bool :=
  containsSub circleMark1 s || containsSub circleMark2 s

/-- Line 24 of the script: the fragment mentions a rectangle type marker. -/
def isRectangleShape (s : List Char) : Bool :=
  containsSub rectMark1 s || containsSub rectMark2 s

/-- The placeholder literal `zIndex: 0` targeted by every substitution. -/
def zOld : List Char := "zIndex: 0".data

/-- Replacement literal `zIndex: 10` for text shapes. -/
def zText : List Char := "zIndex: 10".data

/-- Replacement literal `zIndex: 5` for circles. -/
def zCircle : List Char := "zIndex: 5".data

/-- Replacement literal `zIndex: 1` for the two largest rectangle bands. -/
def zRect1 : List Char := "zIndex: 1".data

/-- Replacement literal `zIndex: 2` for medium rectangles. -/
def zRect2 : List Char := "zIndex: 2".data

/-- Replacement literal `zIndex: 3` for small rectangles. -/
def zRect3 : List Char := "zIndex: 3".data

/-- Key of the width extraction regex. -/
def wKey : List Char := "width: ".data

/-- Key of the height extraction regex. -/
def hKey : List Char := "height: ".data

/-- Python `re.sub(pat, repl, s)` for a literal, metacharacter-free pattern:
every non-overlapping occurrence of `pat`, scanned left to right, is
replaced by `repl`. -/
def reSub (pat repl s : List Char) : List Char :=
  joinWith repl (splitOnSub pat s)

/-- Lines 12 to 47 of the script: the per-fragment rewrite. -/
def fixShape (shape : List Char) : List Char :=
  if isTextShape shape then reSub zOld zText shape
  else if isCircleShape shape then reSub zOld zCircle shape
  else if isRectangleShape shape then
    match searchNum wKey shape, searchNum hKey shape with
    | some width, some height =>
        if 10000 ≤ width ∨ 10000 ≤ height then reSub zOld zRect1 shape
        else if 8000 ≤ width ∨ 8000 ≤ height then reSub zOld zRect1 shape
        else if 5000 ≤ width ∨ 5000 ≤ height then reSub zOld zRect2 shape
        else reSub zOld zRect3 shape
    | _, _ => shape
  else shape

/-- The fragment delimiter: four spaces followed by an opening brace. -/
def delim : List Char := "    ".data ++ [Char.ofNat 123]

/-- Lines 9, 10, 12, 47 and 50 of the script: split the document on the
delimiter, keep the header, rewrite every later fragment, rejoin. -/
def fixContent (content : List Char) : List Char :=
  match splitOnSub delim content with
  | [] => []
  | first :: rest => joinWith delim (first :: rest.map fixShape)

theorem startsWith_iff {p s : List Char} :
    startsWith p s = true ↔ ∃ t, s = p ++ t := by
  induction p generalizing s with
  | nil => simp [startsWith]
  | cons a ps ih =>
    cases s with
    | nil => simp [startsWith]
    | cons b s' =>
      simp only [startsWith, Bool.and_eq_true, beq_iff_eq, ih, List.cons_append,
        List.cons.injEq]
      constructor
      · rintro ⟨rfl, t, rfl⟩
        exact ⟨t, rfl, rfl⟩
      · rintro ⟨t, rfl, rfl⟩
        exact ⟨rfl, t, rfl⟩

theorem startsWith_append_self (p t : List Char) : startsWith p (p ++ t) = true :=
  startsWith_iff.mpr ⟨t, rfl⟩

theorem startsWith_refl (p : List Char) : startsWith p p = true :=
  startsWith_iff.mpr ⟨[], (List.append_nil p).symm⟩

theorem startsWith_length_le {p s : List Char} (h : startsWith p s = true) :
    p.length ≤ s.length := by
  obtain ⟨t, rfl⟩ := startsWith_iff.mp h
  simp

theorem startsWith_drop_eq {p s : List Char} (h : startsWith p s = true) :
    s = p ++ s.drop p.length := by
  obtain ⟨t, rfl⟩ := startsWith_iff.mp h
  simp

theorem startsWith_mono_append {p x : List Char} (t : List Char)
    (h : startsWith p x = true) : startsWith p (x ++ t) = true := by
  obtain ⟨u, rfl⟩ := startsWith_iff.mp h
  exact startsWith_iff.mpr ⟨u ++ t, by simp⟩

theorem startsWith_append_left {p x y : List Char} (h : startsWith p (x ++ y) = true)
    (hl : p.length ≤ x.length) : startsWith p x = true := by
  induction p generalizing x with
  | nil => simp [startsWith]
  | cons a ps ih =>
    cases x with
    | nil => simp at hl
    | cons b x' =>
      simp only [List.cons_append, startsWith, Bool.and_eq_true] at h ⊢
      exact ⟨h.1, ih h.2 (by simpa using hl)⟩

theorem startsWith_append_split {p x y : List Char} (h : startsWith p (x ++ y) = true)
    (hl : x.length ≤ p.length) :
    p.take x.length = x ∧ startsWith (p.drop x.length) y = true := by
  induction x generalizing p with
  | nil => simpa using h
  | cons b x' ih =>
    cases p with
    | nil => simp at hl
    | cons a ps =>
      simp only [List.cons_append, startsWith, Bool.and_eq_true, beq_iff_eq] at h
      obtain ⟨rfl, h2⟩ := h
      have h3 := ih h2 (by simpa using hl)
      simp only [List.length_cons, List.take_succ_cons, List.drop_succ_cons]
      exact ⟨by rw [h3.1], h3.2⟩

theorem endsWith_iff {p s : List Char} : endsWith p s = true ↔ ∃ a, s = a ++ p := by
  unfold endsWith
  rw [startsWith_iff]
  constructor
  · rintro ⟨t, ht⟩
    refine ⟨t.reverse, ?_⟩
    have h2 := congrArg List.reverse ht
    simpa using h2
  · rintro ⟨a, rfl⟩
    exact ⟨a.reverse, by simp⟩

theorem endsWith_refl (p : List Char) : endsWith p p = true :=
  endsWith_iff.mpr ⟨[], rfl⟩

theorem endsWith_cons {p x : List Char} (c : Char) (h : endsWith p x = true) :
    endsWith p (c :: x) = true := by
  obtain ⟨a, rfl⟩ := endsWith_iff.mp h
  exact endsWith_iff.mpr ⟨c :: a, rfl⟩

theorem containsSub_nil_left (s : List Char) : containsSub [] s = true := by
  cases s with
  | nil => rfl
  | cons c rest => simp [containsSub, startsWith]

theorem containsSub_iff {p s : List Char} :
    containsSub p s = true ↔ ∃ a t, s = a ++ (p ++ t) := by
  induction s with
  | nil =>
    simp only [containsSub, List.isEmpty_iff]
    constructor
    · rintro rfl
      exact ⟨[], [], rfl⟩
    · rintro ⟨a, t, h⟩
      rcases List.append_eq_nil.mp h.symm with ⟨rfl, h2⟩
      rcases List.append_eq_nil.mp h2 with ⟨rfl, rfl⟩
      rfl
  | cons c s' ih =>
    simp only [containsSub, Bool.or_eq_true, startsWith_iff, ih]
    constructor
    · rintro (⟨t, ht⟩ | ⟨a, t, rfl⟩)
      · exact ⟨[], t, by simpa using ht⟩
      · exact ⟨c :: a, t, rfl⟩
    · rintro ⟨a, t, h⟩
      cases a with
      | nil => exact Or.inl ⟨t, by simpa using h⟩
      | cons d a' =>
        simp only [List.cons_append, List.cons.injEq] at h
        exact Or.inr ⟨a', t, h.2⟩

theorem containsSub_cons_of {p s : List Char} (c : Char) (h : containsSub p s = true) :
    containsSub p (c :: s) = true := by
  simp [containsSub, h]

theorem containsSub_self (p : List Char) : containsSub p p = true :=
  containsSub_iff.mpr ⟨[], [], by simp⟩

theorem containsSub_of_middle {p m a b : List Char} (hm : containsSub p m = true) :
    containsSub p (a ++ m ++ b) = true := by
  obtain ⟨x, t, rfl⟩ := containsSub_iff.mp hm
  exact containsSub_iff.mpr ⟨a ++ x, t ++ b, by simp⟩

theorem startsWith_containsSub {p s : List Char} (h : startsWith p s = true) :
    containsSub p s = true := by
  obtain ⟨t, rfl⟩ := startsWith_iff.mp h
  exact containsSub_iff.mpr ⟨[], t, rfl⟩

theorem containsSub_append_cases {pat x y : List Char}
    (h : containsSub pat (x ++ y) = true) :
    containsSub pat x = true ∨ containsSub pat y = true ∨
      ∃ j, 1 ≤ j ∧ j < pat.length ∧ endsWith (pat.take j) x = true ∧
        startsWith (pat.drop j) y = true := by
  induction x with
  | nil => exact Or.inr (Or.inl (by simpa using h))
  | cons c x' ih =>
    rw [List.cons_append] at h
    rw [containsSub, Bool.or_eq_true] at h
    rcases h with hsw | hc
    · have hsw' : startsWith pat ((c :: x') ++ y) = true := by rwa [List.cons_append]
      by_cases hl : pat.length ≤ (c :: x').length
      · exact Or.inl (startsWith_containsSub (startsWith_append_left hsw' hl))
      · push_neg at hl
        have hsplit := startsWith_append_split hsw' (le_of_lt hl)
        refine Or.inr (Or.inr ⟨(c :: x').length, by simp, hl, ?_, hsplit.2⟩)
        rw [hsplit.1]
        exact endsWith_refl _
    · rcases ih hc with h1 | h2 | ⟨j, hj1, hj2, hend, hsw2⟩
      · exact Or.inl (containsSub_cons_of c h1)
      · exact Or.inr (Or.inl h2)
      · exact Or.inr (Or.inr ⟨j, hj1, hj2, endsWith_cons c hend, hsw2⟩)

theorem joinWith_not_contains {pat r : List Char}
    (h1 : containsSub pat r = false)
    (hlen : pat.length ≤ r.length + 1)
    (hR : ∀ j, j < pat.length → 1 ≤ j → startsWith (pat.drop j) r = false)
    (hL : ∀ j, j < pat.length → 1 ≤ j → endsWith (pat.take j) r = false) :
    ∀ parts : List (List Char), (∀ p ∈ parts, containsSub pat p = false) →
      containsSub pat (joinWith r parts) = false := by
  intro parts
  induction parts with
  | nil =>
    intro _
    cases hp : pat with
    | nil =>
      rw [hp] at h1
      rw [containsSub_nil_left] at h1
      exact absurd h1 (by simp)
    | cons a ps => rfl
  | cons p ps ih =>
    intro hp
    cases ps with
    | nil => exact hp p (List.mem_cons_self p [])
    | cons q ps' =>
      show containsSub pat (p ++ r ++ joinWith r (q :: ps')) = false
      rw [Bool.eq_false_iff]
      intro hc
      rw [List.append_assoc] at hc
      rcases containsSub_append_cases hc with hA | hB | ⟨j, hj1, hj2, _, hsw⟩
      · rw [hp p (List.mem_cons_self p _)] at hA
        exact Bool.false_ne_true hA
      · rcases containsSub_append_cases hB with hB1 | hB2 | ⟨j, hj1, hj2, hend, _⟩
        · rw [h1] at hB1
          exact Bool.false_ne_true hB1
        · have hih := ih (fun x hx => hp x (List.mem_cons_of_mem p hx))
          rw [hih] at hB2
          exact Bool.false_ne_true hB2
        · rw [hL j hj2 hj1] at hend
          exact Bool.false_ne_true hend
      · have hsw' := startsWith_append_left hsw
          (by rw [List.length_drop]; omega)
        rw [hR j hj2 hj1] at hsw'
        exact Bool.false_ne_true hsw'

theorem splitOnSub_eq_go {pat : List Char} (hpat : pat ≠ []) (s : List Char) :
    splitOnSub pat s = splitGo pat s 0 := by
  unfold splitOnSub
  rw [if_neg]
  simp [List.isEmpty_iff, hpat]

theorem splitGo_skip (pat : List Char) :
    ∀ (s : List Char) (k : Nat), splitGo pat s k = splitGo pat (s.drop k) 0 := by
  intro s
  induction s with
  | nil => intro k; simp [splitGo]
  | cons c rest ih =>
    intro k
    cases k with
    | zero => rfl
    | succ j =>
      rw [List.drop_succ_cons]
      exact ih j

theorem splitGo_ne_nil (pat : List Char) :
    ∀ (s : List Char) (k : Nat), splitGo pat s k ≠ [] := by
  intro s
  induction s with
  | nil => intro k; simp [splitGo]
  | cons c rest ih =>
    intro k
    cases k with
    | succ j => exact ih j
    | zero =>
      simp only [splitGo]
      split
      · simp
      · split
        · simp
        · simp

theorem splitOnSub_ne_nil (pat s : List Char) : splitOnSub pat s ≠ [] := by
  unfold splitOnSub
  split
  · simp
  · exact splitGo_ne_nil pat s 0

theorem splitOnSub_empty {pat : List Char} (hpat : pat ≠ []) :
    splitOnSub pat [] = [[]] := by
  rw [splitOnSub_eq_go hpat]
  rfl

theorem splitOnSub_pos {pat s : List Char} (hpat : pat ≠ [])
    (h : startsWith pat s = true) :
    splitOnSub pat s = [] :: splitOnSub pat (s.drop pat.length) := by
  cases s with
  | nil =>
    cases pat with
    | nil => exact absurd rfl hpat
    | cons a ps => exact absurd h (by simp [startsWith])
  | cons c rest =>
    rw [splitOnSub_eq_go hpat, splitOnSub_eq_go hpat]
    simp only [splitGo]
    rw [if_pos h]
    congr 1
    rw [splitGo_skip]
    congr 1
    cases pat with
    | nil => exact absurd rfl hpat
    | cons a ps => simp

theorem splitOnSub_neg {pat : List Char} (c : Char) (rest : List Char) (hpat : pat ≠ [])
    (h : startsWith pat (c :: rest) = false) :
    ∃ f fs, splitOnSub pat rest = f :: fs ∧
      splitOnSub pat (c :: rest) = (c :: f) :: fs := by
  obtain ⟨f, fs, hffs⟩ : ∃ f fs, splitGo pat rest 0 = f :: fs := by
    rcases hgo : splitGo pat rest 0 with _ | ⟨f, fs⟩
    · exact absurd hgo (splitGo_ne_nil pat rest 0)
    · exact ⟨f, fs, rfl⟩
  refine ⟨f, fs, ?_, ?_⟩
  · rw [splitOnSub_eq_go hpat]
    exact hffs
  · rw [splitOnSub_eq_go hpat]
    simp only [splitGo]
    rw [if_neg (by simp [h]), hffs]

theorem joinWith_cons_cons (sep : List Char) (c : Char) (f : List Char)
    (fs : List (List Char)) :
    joinWith sep ((c :: f) :: fs) = c :: joinWith sep (f :: fs) := by
  cases fs with
  | nil => rfl
  | cons g gs => rfl

theorem join_split {pat : List Char} (hpat : pat ≠ []) :
    ∀ (s : List Char), joinWith pat (splitOnSub pat s) = s := by
  have H : ∀ (n : Nat) (s : List Char), s.length ≤ n →
      joinWith pat (splitOnSub pat s) = s := by
    intro n
    induction n with
    | zero =>
      intro s hs
      have h0 : s = [] := List.length_eq_zero.mp (Nat.le_zero.mp hs)
      subst h0
      rw [splitOnSub_empty hpat]
      rfl
    | succ n ih =>
      intro s hs
      cases hsw : startsWith pat s with
      | true =>
        have hple : pat.length ≤ s.length := startsWith_length_le hsw
        have hp1 : 1 ≤ pat.length := by
          cases pat with
          | nil => exact absurd rfl hpat
          | cons a ps => simp
        rw [splitOnSub_pos hpat hsw]
        obtain ⟨f, fs, hval⟩ : ∃ f fs, splitOnSub pat (s.drop pat.length) = f :: fs := by
          rcases hv : splitOnSub pat (s.drop pat.length) with _ | ⟨f, fs⟩
          · exact absurd hv (splitOnSub_ne_nil pat _)
          · exact ⟨f, fs, rfl⟩
        rw [hval]
        show [] ++ pat ++ joinWith pat (f :: fs) = s
        rw [List.nil_append, ← hval,
          ih (s.drop pat.length) (by rw [List.length_drop]; omega)]
        exact (startsWith_drop_eq hsw).symm
      | false =>
        cases s with
        | nil =>
          rw [splitOnSub_empty hpat]
          rfl
        | cons c rest =>
          obtain ⟨f, fs, h1, h2⟩ := splitOnSub_neg c rest hpat hsw
          rw [h2, joinWith_cons_cons, ← h1,
            ih rest (by simp only [List.length_cons] at hs; omega)]
  exact fun s => H s.length s le_rfl

theorem splitOnSub_eq_single {pat : List Char} (hpat : pat ≠ []) :
    ∀ {s : List Char}, containsSub pat s = false → splitOnSub pat s = [s] := by
  intro s
  induction s with
  | nil => intro _; exact splitOnSub_empty hpat
  | cons c rest ih =>
    intro h
    rw [containsSub, Bool.or_eq_false_iff] at h
    obtain ⟨f, fs, h1, h2⟩ := splitOnSub_neg c rest hpat h.1
    rw [ih h.2] at h1
    injection h1 with hf hfs
    subst hf
    subst hfs
    exact h2

theorem two_le_splitOnSub_length {pat : List Char} (hpat : pat ≠ []) :
    ∀ {s : List Char}, containsSub pat s = true → 2 ≤ (splitOnSub pat s).length := by
  intro s
  induction s with
  | nil =>
    intro h
    cases pat with
    | nil => exact absurd rfl hpat
    | cons a ps => exact absurd h (by simp [containsSub])
  | cons c rest ih =>
    intro h
    cases hsw : startsWith pat (c :: rest) with
    | true =>
      rw [splitOnSub_pos hpat hsw]
      simp only [List.length_cons]
      have hpos := List.length_pos.mpr (splitOnSub_ne_nil pat ((c :: rest).drop pat.length))
      omega
    | false =>
      rw [containsSub, hsw, Bool.false_or] at h
      obtain ⟨f, fs, h1, h2⟩ := splitOnSub_neg c rest hpat hsw
      rw [h2]
      have h3 := ih h
      rw [h1] at h3
      simpa using h3

theorem splitOnSub_head_eq {pat : List Char} (hpat : pat ≠ []) :
    ∀ (s f : List Char) (fs : List (List Char)),
      splitOnSub pat s = f :: fs → ∃ t, s = f ++ t := by
  have H : ∀ (n : Nat) (s : List Char), s.length ≤ n → ∀ (f : List Char)
      (fs : List (List Char)), splitOnSub pat s = f :: fs → ∃ t, s = f ++ t := by
    intro n
    induction n with
    | zero =>
      intro s hs f fs hval
      have h0 : s = [] := List.length_eq_zero.mp (Nat.le_zero.mp hs)
      subst h0
      rw [splitOnSub_empty hpat] at hval
      injection hval with hf _
      subst hf
      exact ⟨[], rfl⟩
    | succ n ih =>
      intro s hs f fs hval
      cases hsw : startsWith pat s with
      | true =>
        rw [splitOnSub_pos hpat hsw] at hval
        injection hval with hf _
        subst hf
        exact ⟨s, rfl⟩
      | false =>
        cases s with
        | nil =>
          rw [splitOnSub_empty hpat] at hval
          injection hval with hf _
          subst hf
          exact ⟨[], rfl⟩
        | cons c rest =>
          obtain ⟨g, gs, h1, h2⟩ := splitOnSub_neg c rest hpat hsw
          rw [h2] at hval
          injection hval with hf _
          obtain ⟨t, ht⟩ := ih rest (by simp only [List.length_cons] at hs; omega) g gs h1
          subst hf
          exact ⟨t, by rw [ht]; rfl⟩
  exact fun s => H s.length s le_rfl

theorem splitOnSub_parts_free {pat : List Char} (hpat : pat ≠ []) :
    ∀ (s p : List Char), p ∈ splitOnSub pat s → containsSub pat p = false := by
  have H : ∀ (n : Nat) (s : List Char), s.length ≤ n →
      ∀ p, p ∈ splitOnSub pat s → containsSub pat p = false := by
    intro n
    induction n with
    | zero =>
      intro s hs p hp
      have h0 : s = [] := List.length_eq_zero.mp (Nat.le_zero.mp hs)
      subst h0
      rw [splitOnSub_empty hpat] at hp
      rw [List.mem_singleton.mp hp]
      cases pat with
      | nil => exact absurd rfl hpat
      | cons a ps => rfl
    | succ n ih =>
      intro s hs p hp
      have hempty : containsSub pat [] = false := by
        cases pat with
        | nil => exact absurd rfl hpat
        | cons a ps => rfl
      cases hsw : startsWith pat s with
      | true =>
        have hple : pat.length ≤ s.length := startsWith_length_le hsw
        have hp1 : 1 ≤ pat.length := by
          cases pat with
          | nil => exact absurd rfl hpat
          | cons a ps => simp
        rw [splitOnSub_pos hpat hsw] at hp
        rcases List.mem_cons.mp hp with rfl | hp'
        · exact hempty
        · exact ih (s.drop pat.length) (by rw [List.length_drop]; omega) p hp'
      | false =>
        cases s with
        | nil =>
          rw [splitOnSub_empty hpat] at hp
          rw [List.mem_singleton.mp hp]
          exact hempty
        | cons c rest =>
          obtain ⟨f, fs, h1, h2⟩ := splitOnSub_neg c rest hpat hsw
          have hrest : rest.length ≤ n := by
            simp only [List.length_cons] at hs; omega
          rw [h2] at hp
          rcases List.mem_cons.mp hp with rfl | hp'
          · have hfree : containsSub pat f = false :=
              ih rest hrest f (by rw [h1]; exact List.mem_cons_self f fs)
            obtain ⟨t, ht⟩ := splitOnSub_head_eq hpat rest f fs h1
            rw [containsSub, Bool.or_eq_false_iff]
            refine ⟨?_, hfree⟩
            rw [Bool.eq_false_iff]
            intro hswcf
            have : startsWith pat (c :: rest) = true := by
              rw [ht]
              have := startsWith_mono_append t hswcf
              rwa [List.cons_append] at this
            rw [hsw] at this
            exact Bool.false_ne_true this
          · exact ih rest hrest p (by rw [h1]; exact List.mem_cons_of_mem f hp')
  exact fun s => H s.length s le_rfl

theorem splitOnSub_part_middle {pat : List Char} (hpat : pat ≠ []) :
    ∀ (s p : List Char), p ∈ splitOnSub pat s → ∃ a b, s = a ++ p ++ b := by
  have H : ∀ (n : Nat) (s : List Char), s.length ≤ n →
      ∀ p, p ∈ splitOnSub pat s → ∃ a b, s = a ++ p ++ b := by
    intro n
    induction n with
    | zero =>
      intro s hs p hp
      have h0 : s = [] := List.length_eq_zero.mp (Nat.le_zero.mp hs)
      subst h0
      rw [splitOnSub_empty hpat] at hp
      rw [List.mem_singleton.mp hp]
      exact ⟨[], [], rfl⟩
    | succ n ih =>
      intro s hs p hp
      cases hsw : startsWith pat s with
      | true =>
        have hple : pat.length ≤ s.length := startsWith_length_le hsw
        have hp1 : 1 ≤ pat.length := by
          cases pat with
          | nil => exact absurd rfl hpat
          | cons a ps => simp
        rw [splitOnSub_pos hpat hsw] at hp
        rcases List.mem_cons.mp hp with rfl | hp'
        · exact ⟨[], s, by simp⟩
        · obtain ⟨a, b, hab⟩ :=
            ih (s.drop pat.length) (by rw [List.length_drop]; omega) p hp'
          refine ⟨pat ++ a, b, ?_⟩
          conv_lhs => rw [startsWith_drop_eq hsw]
          rw [hab]
          simp [List.append_assoc]
      | false =>
        cases s with
        | nil =>
          rw [splitOnSub_empty hpat] at hp
          rw [List.mem_singleton.mp hp]
          exact ⟨[], [], rfl⟩
        | cons c rest =>
          obtain ⟨f, fs, h1, h2⟩ := splitOnSub_neg c rest hpat hsw
          have hrest : rest.length ≤ n := by
            simp only [List.length_cons] at hs; omega
          rw [h2] at hp
          rcases List.mem_cons.mp hp with rfl | hp'
          · obtain ⟨t, ht⟩ := splitOnSub_head_eq hpat rest f fs h1
            exact ⟨[], t, by rw [ht]; rfl⟩
          · obtain ⟨a, b, hab⟩ :=
              ih rest hrest p (by rw [h1]; exact List.mem_cons_of_mem f hp')
            exact ⟨c :: a, b, by rw [hab]; rfl⟩
  exact fun s => H s.length s le_rfl

theorem splitOnSub_append {pat : List Char} (hpat : pat ≠ [])
    (hub : ∀ j, j < pat.length → 1 ≤ j → startsWith (pat.drop j) pat = false)
    (t : List Char) :
    ∀ (p : List Char), containsSub pat p = false →
      splitOnSub pat (p ++ pat ++ t) = p :: splitOnSub pat t := by
  intro p
  induction p with
  | nil =>
    intro _
    rw [List.nil_append]
    rw [splitOnSub_pos hpat (startsWith_append_self pat t)]
    congr 1
    rw [List.drop_left]
  | cons c p' ih =>
    intro hp
    rw [containsSub, Bool.or_eq_false_iff] at hp
    have hsw : startsWith pat ((c :: p') ++ pat ++ t) = false := by
      rw [Bool.eq_false_iff]
      intro hswt
      rw [List.append_assoc] at hswt
      by_cases hl : pat.length ≤ (c :: p').length
      · have h1 := startsWith_append_left hswt hl
        rw [hp.1] at h1
        exact Bool.false_ne_true h1
      · push_neg at hl
        have hsp := startsWith_append_split hswt (le_of_lt hl)
        have h2 := startsWith_append_left hsp.2 (by rw [List.length_drop]; omega)
        rw [hub (c :: p').length hl (by simp)] at h2
        exact Bool.false_ne_true h2
    have hcons : (c :: p') ++ pat ++ t = c :: (p' ++ pat ++ t) := by simp
    rw [hcons] at hsw ⊢
    obtain ⟨f, fs, h1, h2⟩ := splitOnSub_neg c (p' ++ pat ++ t) hpat hsw
    rw [h2]
    rw [ih hp.2] at h1
    injection h1 with hf hfs
    subst hf
    subst hfs
    rfl

theorem splitOnSub_joinWith {pat : List Char} (hpat : pat ≠ [])
    (hub : ∀ j, j < pat.length → 1 ≤ j → startsWith (pat.drop j) pat = false) :
    ∀ parts : List (List Char), parts ≠ [] →
      (∀ p ∈ parts, containsSub pat p = false) →
      splitOnSub pat (joinWith pat parts) = parts := by
  intro parts
  induction parts with
  | nil => intro h _; exact absurd rfl h
  | cons p ps ih =>
    intro _ hfree
    cases ps with
    | nil =>
      show splitOnSub pat p = [p]
      exact splitOnSub_eq_single hpat (hfree p (List.mem_cons_self p []))
    | cons q ps' =>
      show splitOnSub pat (p ++ pat ++ joinWith pat (q :: ps')) = p :: q :: ps'
      rw [splitOnSub_append hpat hub _ p (hfree p (List.mem_cons_self p _))]
      congr 1
      exact ih (by simp) (fun x hx => hfree x (List.mem_cons_of_mem p hx))

theorem fixShape_text {s : List Char} (h : isTextShape s = true) :
    fixShape s = reSub zOld zText s := by
  unfold fixShape
  rw [if_pos h]

theorem fixShape_circle {s : List Char} (h1 : isTextShape s = false)
    (h2 : isCircleShape s = true) : fixShape s = reSub zOld zCircle s := by
  unfold fixShape
  rw [if_neg (by simp [h1]), if_pos h2]

theorem fixShape_rect {s : List Char} {w v : Nat} (h1 : isTextShape s = false)
    (h2 : isCircleShape s = false) (h3 : isRectangleShape s = true)
    (hw : searchNum wKey s = some w) (hv : searchNum hKey s = some v) :
    fixShape s =
      if 10000 ≤ w ∨ 10000 ≤ v then reSub zOld zRect1 s
      else if 8000 ≤ w ∨ 8000 ≤ v then reSub zOld zRect1 s
      else if 5000 ≤ w ∨ 5000 ≤ v then reSub zOld zRect2 s
      else reSub zOld zRect3 s := by
  unfold fixShape
  rw [if_neg (by simp [h1]), if_neg (by simp [h2]), if_pos h3, hw, hv]

theorem fixShape_rect_missing {s : List Char} (h1 : isTextShape s = false)
    (h2 : isCircleShape s = false) (h3 : isRectangleShape s = true)
    (hmiss : searchNum wKey s = none ∨ searchNum hKey s = none) :
    fixShape s = s := by
  unfold fixShape
  rw [if_neg (by simp [h1]), if_neg (by simp [h2]), if_pos h3]
  rcases hw : searchNum wKey s with _ | w <;>
    rcases hv : searchNum hKey s with _ | v
  · rfl
  · rfl
  · rfl
  · rcases hmiss with hm | hm
    · rw [hw] at hm
      exact absurd hm (by simp)
    · rw [hv] at hm
      exact absurd hm (by simp)

theorem fixShape_unrecognized {s : List Char} (h1 : isTextShape s = false)
    (h2 : isCircleShape s = false) (h3 : isRectangleShape s = false) :
    fixShape s = s := by
  unfold fixShape
  rw [if_neg (by simp [h1]), if_neg (by simp [h2]), if_neg (by simp [h3])]

theorem fixShape_branches (s : List Char) :
    fixShape s = s ∨ fixShape s = reSub zOld zText s ∨
      fixShape s = reSub zOld zCircle s ∨ fixShape s = reSub zOld zRect1 s ∨
      fixShape s = reSub zOld zRect2 s ∨ fixShape s = reSub zOld zRect3 s := by
  cases h1 : isTextShape s with
  | true => exact Or.inr (Or.inl (fixShape_text h1))
  | false =>
  cases h2 : isCircleShape s with
  | true => exact Or.inr (Or.inr (Or.inl (fixShape_circle h1 h2)))
  | false =>
  cases h3 : isRectangleShape s with
  | false => exact Or.inl (fixShape_unrecognized h1 h2 h3)
  | true =>
  rcases hw : searchNum wKey s with _ | w
  · exact Or.inl (fixShape_rect_missing h1 h2 h3 (Or.inl hw))
  rcases hv : searchNum hKey s with _ | v
  · exact Or.inl (fixShape_rect_missing h1 h2 h3 (Or.inr hv))
  rw [fixShape_rect h1 h2 h3 hw hv]
  by_cases c1 : 10000 ≤ w ∨ 10000 ≤ v
  · rw [if_pos c1]
    exact Or.inr (Or.inr (Or.inr (Or.inl rfl)))
  rw [if_neg c1]
  by_cases c2 : 8000 ≤ w ∨ 8000 ≤ v
  · rw [if_pos c2]
    exact Or.inr (Or.inr (Or.inr (Or.inl rfl)))
  rw [if_neg c2]
  by_cases c3 : 5000 ≤ w ∨ 5000 ≤ v
  · rw [if_pos c3]
    exact Or.inr (Or.inr (Or.inr (Or.inr (Or.inl rfl))))
  rw [if_neg c3]
  exact Or.inr (Or.inr (Or.inr (Or.inr (Or.inr rfl))))

theorem reSub_not_contains {pat r : List Char} (hpat : pat ≠ [])
    (h1 : containsSub pat r = false)
    (hlen : pat.length ≤ r.length + 1)
    (hR : ∀ j, j < pat.length → 1 ≤ j → startsWith (pat.drop j) r = false)
    (hL : ∀ j, j < pat.length → 1 ≤ j → endsWith (pat.take j) r = false)
    (s : List Char) :
    containsSub pat (reSub pat r s) = false := by
  unfold reSub
  exact joinWith_not_contains h1 hlen hR hL _
    (fun p hp => splitOnSub_parts_free hpat s p hp)

theorem reSub_keeps_free {pat q r : List Char} (hq : q ≠ [])
    (h1 : containsSub pat r = false)
    (hlen : pat.length ≤ r.length + 1)
    (hR : ∀ j, j < pat.length → 1 ≤ j → startsWith (pat.drop j) r = false)
    (hL : ∀ j, j < pat.length → 1 ≤ j → endsWith (pat.take j) r = false)
    {s : List Char} (hs : containsSub pat s = false) :
    containsSub pat (reSub q r s) = false := by
  unfold reSub
  apply joinWith_not_contains h1 hlen hR hL
  intro p hp
  obtain ⟨a, b, hab⟩ := splitOnSub_part_middle hq s p hp
  rw [Bool.eq_false_iff]
  intro hc
  have hmid := containsSub_of_middle (a := a) (b := b) hc
  rw [← hab, hs] at hmid
  exact Bool.false_ne_true hmid

theorem fixShape_of_not_contains {s : List Char}
    (hs : containsSub zOld s = false) : fixShape s = s := by
  have hone : ∀ r : List Char, reSub zOld r s = s := by
    intro r
    unfold reSub
    rw [splitOnSub_eq_single (by decide) hs]
    rfl
  rcases fixShape_branches s with h | h | h | h | h | h <;>
    rw [h] <;> first | rfl | exact hone _

theorem fixShape_cases (s : List Char) :
    fixShape s = s ∨ containsSub zOld (fixShape s) = false := by
  rcases fixShape_branches s with h | h | h | h | h | h
  · exact Or.inl h
  all_goals
    exact Or.inr (h ▸ reSub_not_contains (by decide) (by decide) (by decide)
      (by decide) (by decide) s)

theorem fixShape_idem (s : List Char) : fixShape (fixShape s) = fixShape s := by
  rcases fixShape_cases s with h | h
  · simp only [h]
  · exact fixShape_of_not_contains h

theorem fixShape_keeps_delim_free {s : List Char}
    (hs : containsSub delim s = false) :
    containsSub delim (fixShape s) = false := by
  rcases fixShape_branches s with h | h | h | h | h | h
  · rwa [h]
  all_goals
    exact h ▸ reSub_keeps_free (q := zOld) (by decide) (by decide) (by decide)
      (by decide) (by decide) hs

theorem splitOnSub_cons (pat s : List Char) :
    ∃ f fs, splitOnSub pat s = f :: fs := by
  rcases h : splitOnSub pat s with _ | ⟨f, fs⟩
  · exact absurd h (splitOnSub_ne_nil pat s)
  · exact ⟨f, fs, rfl⟩

theorem fixContent_eq {doc first : List Char} {rest : List (List Char)}
    (h : splitOnSub delim doc = first :: rest) :
    fixContent doc = joinWith delim (first :: rest.map fixShape) := by
  unfold fixContent
  rw [h]

theorem fixContent_split {doc first : List Char} {rest : List (List Char)}
    (h : splitOnSub delim doc = first :: rest) :
    splitOnSub delim (fixContent doc) = first :: rest.map fixShape := by
  rw [fixContent_eq h]
  apply splitOnSub_joinWith (by decide) (by decide) _ (by simp)
  intro p hp
  rcases List.mem_cons.mp hp with rfl | hp'
  · exact splitOnSub_parts_free (by decide) doc p
      (by rw [h]; exact List.mem_cons_self _ _)
  · obtain ⟨x, hx, rfl⟩ := List.mem_map.mp hp'
    exact fixShape_keeps_delim_free
      (splitOnSub_parts_free (by decide) doc x
        (by rw [h]; exact List.mem_cons_of_mem first hx))

theorem reSub_contains_repl {pat r s : List Char} (hpat : pat ≠ [])
    (hz : containsSub pat s = true) : containsSub r (reSub pat r s) = true := by
  unfold reSub
  have h2 := two_le_splitOnSub_length hpat hz
  rcases hval : splitOnSub pat s with _ | ⟨f, fs⟩
  · exact absurd hval (splitOnSub_ne_nil pat s)
  rcases fs with _ | ⟨g, gs⟩
  · rw [hval] at h2
    simp at h2
  · exact containsSub_of_middle (containsSub_self r)

theorem map_fix_eq_of_forall {l : List (List Char)} {f g : List Char → List Char}
    (h : ∀ x ∈ l, f x = g x) : l.map f = l.map g := by
  induction l with
  | nil => rfl
  | cons a l ih =>
    simp only [List.map_cons]
    rw [h a (List.mem_cons_self a l), ih (fun x hx => h x (List.mem_cons_of_mem a hx))]

/-- Claim C1 is false on the code: `re.sub` without a count substitutes every
non-overlapping occurrence, not only the first. On a text fragment holding two
copies of the literal `zIndex: 0`, the script rewrites both to `zIndex: 10`,
the literal survives nowhere in the output, and the output differs from the
first-occurrence-only result the claim predicts. -/
theorem c1_first_only_counterexample :
    fixShape "type: \"text\" zIndex: 0 x zIndex: 0".data =
      "type: \"text\" zIndex: 10 x zIndex: 10".data ∧
    containsSub zOld (fixShape "type: \"text\" zIndex: 0 x zIndex: 0".data) = false ∧
    fixShape "type: \"text\" zIndex: 0 x zIndex: 0".data ≠
      "type: \"text\" zIndex: 10 x zIndex: 0".data := by decide

/-- Claim C1 (amended): for every shape fragment the transformation either
leaves the fragment unchanged, or substitutes every left-to-right
non-overlapping occurrence of the exact literal `zIndex: 0` with one fixed
replacement literal: the fragment factors into literal-free parts joined by
the literal, the output is exactly those parts joined by the replacement, and
no occurrence of the literal survives in the output. -/
theorem c1_every_occurrence (shape : List Char) :
    fixShape shape = shape ∨
      ∃ r, (r = zText ∨ r = zCircle ∨ r = zRect1 ∨ r = zRect2 ∨ r = zRect3) ∧
        fixShape shape = joinWith r (splitOnSub zOld shape) ∧
        joinWith zOld (splitOnSub zOld shape) = shape ∧
        (∀ p ∈ splitOnSub zOld shape, containsSub zOld p = false) ∧
        containsSub zOld (fixShape shape) = false := by
  have base : ∀ r : List Char, containsSub zOld r = false →
      zOld.length ≤ r.length + 1 →
      (∀ j, j < zOld.length → 1 ≤ j → startsWith (zOld.drop j) r = false) →
      (∀ j, j < zOld.length → 1 ≤ j → endsWith (zOld.take j) r = false) →
      fixShape shape = reSub zOld r shape →
      fixShape shape = joinWith r (splitOnSub zOld shape) ∧
        joinWith zOld (splitOnSub zOld shape) = shape ∧
        (∀ p ∈ splitOnSub zOld shape, containsSub zOld p = false) ∧
        containsSub zOld (fixShape shape) = false := by
    intro r h1 hlen hR hL heq
    refine ⟨heq, join_split (by decide) shape,
      fun p hp => splitOnSub_parts_free (by decide) shape p hp, ?_⟩
    rw [heq]
    exact reSub_not_contains (by decide) h1 hlen hR hL shape
  rcases fixShape_branches shape with h | h | h | h | h | h
  · exact Or.inl h
  · exact Or.inr ⟨zText, Or.inl rfl,
      base zText (by decide) (by decide) (by decide) (by decide) h⟩
  · exact Or.inr ⟨zCircle, Or.inr (Or.inl rfl),
      base zCircle (by decide) (by decide) (by decide) (by decide) h⟩
  · exact Or.inr ⟨zRect1, Or.inr (Or.inr (Or.inl rfl)),
      base zRect1 (by decide) (by decide) (by decide) (by decide) h⟩
  · exact Or.inr ⟨zRect2, Or.inr (Or.inr (Or.inr (Or.inl rfl))),
      base zRect2 (by decide) (by decide) (by decide) (by decide) h⟩
  · exact Or.inr ⟨zRect3, Or.inr (Or.inr (Or.inr (Or.inr rfl))),
      base zRect3 (by decide) (by decide) (by decide) (by decide) h⟩

/-- Claim C2: for every rectangle-kind fragment (rectangle marker present,
text and circle markers absent) whose width and height parse from the first
`width: ` and `height: ` digit runs and which holds the literal `zIndex: 0`,
the substituted value is 1 when a dimension reaches 10000, 1 also whenever a
dimension reaches 8000, 2 when a dimension reaches 5000 while both stay below
8000, and 3 when both dimensions stay below 5000. -/
theorem c2_rectangle_bands (f : List Char) (w v : Nat)
    (ht : isTextShape f = false) (hc : isCircleShape f = false)
    (hr : isRectangleShape f = true)
    (hw : searchNum wKey f = some w) (hv : searchNum hKey f = some v)
    (hz : containsSub zOld f = true) :
    ((10000 ≤ w ∨ 10000 ≤ v) →
      fixShape f = reSub zOld zRect1 f ∧ containsSub zRect1 (fixShape f) = true) ∧
    ((8000 ≤ w ∨ 8000 ≤ v) →
      fixShape f = reSub zOld zRect1 f ∧ containsSub zRect1 (fixShape f) = true) ∧
    (w < 8000 → v < 8000 → (5000 ≤ w ∨ 5000 ≤ v) →
      fixShape f = reSub zOld zRect2 f ∧ containsSub zRect2 (fixShape f) = true) ∧
    (w < 5000 → v < 5000 →
      fixShape f = reSub zOld zRect3 f ∧ containsSub zRect3 (fixShape f) = true) := by
  have hfix := fixShape_rect ht hc hr hw hv
  refine ⟨?_, ?_, ?_, ?_⟩
  · intro c1
    have heq : fixShape f = reSub zOld zRect1 f := by rw [hfix, if_pos c1]
    exact ⟨heq, by rw [heq]; exact reSub_contains_repl (by decide) hz⟩
  · intro c2
    have heq : fixShape f = reSub zOld zRect1 f := by
      by_cases c1 : 10000 ≤ w ∨ 10000 ≤ v
      · rw [hfix, if_pos c1]
      · rw [hfix, if_neg c1, if_pos c2]
    exact ⟨heq, by rw [heq]; exact reSub_contains_repl (by decide) hz⟩
  · intro hw8 hv8 c3
    have heq : fixShape f = reSub zOld zRect2 f := by
      rw [hfix, if_neg (by omega), if_neg (by omega), if_pos c3]
    exact ⟨heq, by rw [heq]; exact reSub_contains_repl (by decide) hz⟩
  · intro hw5 hv5
    have heq : fixShape f = reSub zOld zRect3 f := by
      rw [hfix, if_neg (by omega), if_neg (by omega), if_neg (by omega)]
    exact ⟨heq, by rw [heq]; exact reSub_contains_repl (by decide) hz⟩

/-- Claim C2 witness: a rectangle fragment with width 6000, height 100 and the
placeholder literal is rewritten with the medium-band value 2. -/
theorem c2_rectangle_bands_witness :
    fixShape "type: \"rectangle\", width: 6000, height: 100, zIndex: 0".data =
      reSub zOld zRect2 "type: \"rectangle\", width: 6000, height: 100, zIndex: 0".data :=
  ((c2_rectangle_bands "type: \"rectangle\", width: 6000, height: 100, zIndex: 0".data
      6000 100 (by decide) (by decide) (by decide) (by decide) (by decide)
      (by decide)).2.2.1 (by decide) (by decide) (Or.inl (by decide))).1

/-- Claim C3: every text-kind fragment holding the literal `zIndex: 0` is
rewritten by joining its literal-free parts with `zIndex: 10`, so the output
holds `zIndex: 10` and every character outside the substituted literal
occurrences, digits included, is unchanged; every circle-kind fragment
(circle marker present, text marker absent) holding the literal is rewritten
the same way with `zIndex: 5`. -/
theorem c3_text_circle_values (f g : List Char) :
    (isTextShape f = true → containsSub zOld f = true →
      fixShape f = joinWith zText (splitOnSub zOld f) ∧
      joinWith zOld (splitOnSub zOld f) = f ∧
      containsSub zText (fixShape f) = true) ∧
    (isTextShape g = false → isCircleShape g = true → containsSub zOld g = true →
      fixShape g = joinWith zCircle (splitOnSub zOld g) ∧
      joinWith zOld (splitOnSub zOld g) = g ∧
      containsSub zCircle (fixShape g) = true) := by
  constructor
  · intro ht hz
    have heq : fixShape f = reSub zOld zText f := fixShape_text ht
    exact ⟨heq, join_split (by decide) f,
      by rw [heq]; exact reSub_contains_repl (by decide) hz⟩
  · intro ht hc hz
    have heq : fixShape g = reSub zOld zCircle g := fixShape_circle ht hc
    exact ⟨heq, join_split (by decide) g,
      by rw [heq]; exact reSub_contains_repl (by decide) hz⟩

/-- Claim C3 witness: concrete text and circle fragments with the placeholder
literal receive `zIndex: 10` and `zIndex: 5` respectively. -/
theorem c3_text_circle_values_witness :
    fixShape "type: \"text\", zIndex: 0,".data =
      joinWith zText (splitOnSub zOld "type: \"text\", zIndex: 0,".data) ∧
    fixShape "type: \"circle\", zIndex: 0,".data =
      joinWith zCircle (splitOnSub zOld "type: \"circle\", zIndex: 0,".data) :=
  ⟨((c3_text_circle_values "type: \"text\", zIndex: 0,".data
      "type: \"circle\", zIndex: 0,".data).1 (by decide) (by decide)).1,
   ((c3_text_circle_values "type: \"text\", zIndex: 0,".data
      "type: \"circle\", zIndex: 0,".data).2 (by decide) (by decide) (by decide)).1⟩

/-- Claim C4: the header fragment, the text before the first delimiter
occurrence (the whole document when the delimiter never occurs), is preserved
byte-for-byte: it is a prefix of the output, and splitting the output on the
delimiter returns the same head fragment as splitting the input. -/
theorem c4_header_preserved (doc : List Char) :
    (splitOnSub delim (fixContent doc)).headI = (splitOnSub delim doc).headI ∧
    ∃ t, fixContent doc = (splitOnSub delim doc).headI ++ t := by
  obtain ⟨first, rest, h⟩ := splitOnSub_cons delim doc
  constructor
  · rw [fixContent_split h, h]
    rfl
  · rw [h, fixContent_eq h]
    cases hm : rest.map fixShape with
    | nil => exact ⟨[], by simp [joinWith, List.headI]⟩
    | cons q qs =>
      exact ⟨delim ++ joinWith delim (q :: qs),
        by simp [joinWith, List.headI, List.append_assoc]⟩

/-- Claim C5: a shape fragment holding none of the six recognized type
markers passes through byte-for-byte, even when it holds the literal
`zIndex: 0`. -/
theorem c5_unrecognized_passthrough (f : List Char)
    (ht : isTextShape f = false) (hc : isCircleShape f = false)
    (hr : isRectangleShape f = false) : fixShape f = f :=
  fixShape_unrecognized ht hc hr

/-- Claim C5 witness: a fragment with the placeholder literal but no type
marker is returned unchanged. -/
theorem c5_unrecognized_passthrough_witness :
    fixShape "plain, zIndex: 0, width: 20000,".data =
      "plain, zIndex: 0, width: 20000,".data :=
  c5_unrecognized_passthrough "plain, zIndex: 0, width: 20000,".data
    (by decide) (by decide) (by decide)

/-- Claim C6: a rectangle-kind fragment in which the width pattern or the
height pattern never matches is returned byte-identical, with no substitution
and no failure: the rewrite is the total identity on such fragments. -/
theorem c6_rectangle_missing_dims (f : List Char)
    (ht : isTextShape f = false) (hc : isCircleShape f = false)
    (hr : isRectangleShape f = true)
    (hmiss : searchNum wKey f = none ∨ searchNum hKey f = none) :
    fixShape f = f :=
  fixShape_rect_missing ht hc hr hmiss

/-- Claim C6 witness: a rectangle fragment without any width field keeps its
placeholder literal untouched. -/
theorem c6_rectangle_missing_dims_witness :
    fixShape "type: \"rectangle\", height: 50, zIndex: 0,".data =
      "type: \"rectangle\", height: 50, zIndex: 0,".data :=
  c6_rectangle_missing_dims "type: \"rectangle\", height: 50, zIndex: 0,".data
    (by decide) (by decide) (by decide) (Or.inl (by decide))

/-- Claim C7: the transformation is idempotent: a document without the
literal `zIndex: 0` is returned unchanged, and applying the transformation
twice to any document equals applying it once. -/
theorem c7_idempotent (doc : List Char) :
    (containsSub zOld doc = false → fixContent doc = doc) ∧
    fixContent (fixContent doc) = fixContent doc := by
  obtain ⟨first, rest, h⟩ := splitOnSub_cons delim doc
  constructor
  · intro hz
    rw [fixContent_eq h]
    have hmap : rest.map fixShape = rest := by
      have hall : ∀ x ∈ rest, fixShape x = x := by
        intro x hx
        apply fixShape_of_not_contains
        obtain ⟨a, b, hab⟩ := splitOnSub_part_middle (show delim ≠ [] by decide) doc x
          (by rw [h]; exact List.mem_cons_of_mem first hx)
        rw [Bool.eq_false_iff]
        intro hcx
        have hm := containsSub_of_middle (a := a) (b := b) hcx
        rw [← hab, hz] at hm
        exact Bool.false_ne_true hm
      calc rest.map fixShape = rest.map id := map_fix_eq_of_forall hall
        _ = rest := List.map_id rest
    rw [hmap, ← h]
    exact join_split (by decide) doc
  · have h2 := fixContent_split h
    rw [fixContent_eq h2, fixContent_eq h]
    congr 1
    congr 1
    rw [List.map_map]
    exact map_fix_eq_of_forall (fun x _ => fixShape_idem x)

/-- Claim C7 witness: a concrete already-fixed document, free of
`zIndex: 0`, is returned unchanged. -/
theorem c7_idempotent_witness :
    containsSub zOld
      ("hdr\n".data ++ delim ++ "type: \"circle\", zIndex: 5,\n".data) = false ∧
    fixContent ("hdr\n".data ++ delim ++ "type: \"circle\", zIndex: 5,\n".data) =
      "hdr\n".data ++ delim ++ "type: \"circle\", zIndex: 5,\n".data :=
  ⟨by decide,
   (c7_idempotent ("hdr\n".data ++ delim ++ "type: \"circle\", zIndex: 5,\n".data)).1
     (by decide)⟩

/-- Claim C8: classification follows the fixed precedence text, circle,
rectangle, and exactly one branch fires: a fragment with a text marker takes
the text substitution whatever other markers it holds, and a fragment with a
circle marker but no text marker takes the circle substitution. -/
theorem c8_type_precedence (f g : List Char) :
    (isTextShape f = true → fixShape f = reSub zOld zText f) ∧
    (isTextShape g = false → isCircleShape g = true →
      fixShape g = reSub zOld zCircle g) :=
  ⟨fun ht => fixShape_text ht, fun ht hc => fixShape_circle ht hc⟩

/-- Claim C8 witness: a fragment holding both a text marker and a circle
marker receives the text value, never the circle value. -/
theorem c8_type_precedence_witness :
    isCircleShape "type: \"text\", type: \"circle\", zIndex: 0,".data = true ∧
    fixShape "type: \"text\", type: \"circle\", zIndex: 0,".data =
      reSub zOld zText "type: \"text\", type: \"circle\", zIndex: 0,".data :=
  ⟨by decide,
   (c8_type_precedence "type: \"text\", type: \"circle\", zIndex: 0,".data
      "type: \"text\", type: \"circle\", zIndex: 0,".data).1 (by decide)⟩

/-- Claim C9: the output is exactly the header fragment joined with all the
rewritten shape fragments with the delimiter re-inserted before each one, and
splitting the output on the delimiter returns exactly as many fragments as
splitting the input did: no substitution creates or destroys a delimiter
occurrence. -/
theorem c9_reassembly (doc : List Char) :
    fixContent doc =
      joinWith delim ((splitOnSub delim doc).headI ::
        ((splitOnSub delim doc).tail).map fixShape) ∧
    (splitOnSub delim (fixContent doc)).length = (splitOnSub delim doc).length := by
  obtain ⟨first, rest, h⟩ := splitOnSub_cons delim doc
  constructor
  · rw [h, fixContent_eq h]
    rfl
  · rw [fixContent_split h, h]
    simp

/-- Claim C10: the substitution matches the bare nine-character literal with
no boundary check on the following character, so it also fires when the 0 is
the leading digit of a longer number: a text fragment holding `zIndex: 01`
holds the placeholder literal as a substring and is rewritten so that this
occurrence becomes `zIndex: 101`. -/
theorem c10_leading_digit :
    containsSub zOld "type: \"text\", zIndex: 01,".data = true ∧
    fixShape "type: \"text\", zIndex: 01,".data =
      "type: \"text\", zIndex: 101,".data ∧
    containsSub "zIndex: 101".data
      (fixShape "type: \"text\", zIndex: 01,".data) = true := by decide
